import Mathlib

/-!
Verification development for the LatinIME native dictionary core.

The embedding covers the `Dictionary` façade (`dictionary.cpp`), the JNI
entry points of `BinaryDictionary`, and models of the collaborators they
delegate to (structure policy, `TrieMap`, `TimeKeeper`).  Components whose
implementation is not part of the two source files are modelled from the
specification and marked as such in their doc comments.
-/

set_option autoImplicit false

namespace LatinIME

/-- Sentinel for a missing probability (`defines.h`, stated in the spec glossary). -/
def NOT_A_PROBABILITY : Int := -1

/-- Sentinel for a missing dictionary position (`defines.h`, stated in the spec glossary). -/
def NOT_A_DICT_POS : Int := -1

/-- Maximum word length in codepoints (spec §3: 48). -/
def MAX_WORD_LENGTH : Nat := 48

/-- Abstract interface of the format-specific dictionary structure policy,
as consumed by `Dictionary::getProbability` in `dictionary.cpp`.  The policy
implementation is format specific and not part of the sources; the façade is
verified for every policy. -/
structure DictionaryStructurePolicy where
  getTerminalPtNodePositionOfWord : List Int → Bool → Int
  getUnigramProbabilityOfPtNode : Int → Int

/-- Embedding of `Dictionary::getProbability` (`dictionary.cpp` lines 69-77):
resolve the terminal position with `forceLowerCaseSearch = false`; on
`NOT_A_DICT_POS` return `NOT_A_PROBABILITY`, otherwise the terminal's unigram
probability. -/
def Dictionary.getProbability (p : DictionaryStructurePolicy) (word : List Int) : Int :=
  let pos := p.getTerminalPtNodePositionOfWord word false
  if pos = NOT_A_DICT_POS then NOT_A_PROBABILITY
  else p.getUnigramProbabilityOfPtNode pos

/-- The public operations of the `Dictionary` façade (`dictionary.cpp`). -/
inductive FacadeCall
  | getSuggestions
  | getPredictions
  | getProbability
  | getBigramProbability
  | addUnigramWord
  | addBigramWords
  | removeBigramWords
  | flush
  | flushWithGC
  | needsToRunGC
  | getProperty
  | getWordProperty
  | getNextWordAndNextToken
  deriving DecidableEq

/-- Observable events of a façade operation: advancing the process-wide
clock, (re)initialising the traversal session, invoking one of the two
suggestion engines, or delegating to the store layer. -/
inductive Ev
  | setTime
  | initSession
  | gestureEngine
  | typingEngine
  | delegate (c : FacadeCall)
  deriving DecidableEq

/-- Event trace of `Dictionary::getSuggestions` (`dictionary.cpp` lines 45-60):
set the current time, initialise the traversal session, then invoke the
gesture engine when `SuggestOptions.isGesture()` holds and the typing engine
otherwise. -/
def Dictionary.getSuggestionsEvents (isGesture : Bool) : List Ev :=
  [Ev.setTime, Ev.initSession, if isGesture then Ev.gestureEngine else Ev.typingEngine]

/-- Event trace of each public façade operation (`dictionary.cpp` lines 45-136).
Every method body begins with `TimeKeeper::setCurrentTime()`;
`getPredictions` skips its store delegation when the context length is not
positive. -/
def Dictionary.facadeEvents (c : FacadeCall) (isGesture : Bool) (predLength : Int) :
    List Ev :=
  match c with
  | .getSuggestions => Dictionary.getSuggestionsEvents isGesture
  | .getPredictions =>
      Ev.setTime :: (if predLength ≤ 0 then [] else [Ev.delegate .getPredictions])
  | c => [Ev.setTime, Ev.delegate c]

/-- Modelled from the spec: `TimeKeeper::setCurrentTime` (`utils/time_keeper`,
not among the sources).  Spec §4.4: each public entry advances a process-wide
logical clock that is monotonic within a run; modelled as a strictly
increasing counter. -/
def TimeKeeper.setCurrentTime (t : Nat) : Nat := t + 1

/-- One façade call: the clock is advanced and the operation's events are
emitted. -/
def Dictionary.runFacadeCall (c : FacadeCall) (isGesture : Bool) (predLength : Int)
    (clock : Nat) : Nat × List Ev :=
  (TimeKeeper.setCurrentTime clock, Dictionary.facadeEvents c isGesture predLength)

/-- Clock value after a run of façade calls. -/
def Dictionary.runFacadeCalls (cs : List (FacadeCall × Bool × Int)) (clock : Nat) : Nat :=
  cs.foldl (fun t c => (Dictionary.runFacadeCall c.1 c.2.1 c.2.2 t).1) clock

/-- Embedding of `Dictionary::getPredictions` (`dictionary.cpp` lines 62-67)
over an abstract output collector `S` and an abstract bigram-store expansion.
The second component records whether the bigram store was consulted. -/
def Dictionary.getPredictions {S : Type} (bigramGetPredictions : List Int → S → S)
    (word : List Int) (length : Int) (out : S) : S × Bool :=
  if length ≤ 0 then (out, false) else (bigramGetPredictions word out, true)

/-- Result node of a `TrieMap` lookup (spec §3): validity flag, value, and the
bitmap entry index of the nested level (`INVALID_INDEX` when absent). -/
structure TrieMapResult where
  mIsValid : Bool
  mValue : Nat
  mNextLevelBitmapEntryIndex : Int
  deriving DecidableEq

/-- Modelled from the spec: the `TrieMap` store itself (`trie_map.h/.cpp` is
not among the sources; only its test `trie_map_test.cpp` is).  Spec §4.1: a
persistent mutable map from 32-bit integer keys to values of at most
`MAX_VALUE`, with arbitrarily nested child levels addressed by bitmap entry
indices.  Levels are identified here by natural indices with the root level at
index `0`; values and child-level links are association lists keyed by
(level index, key), most recent entry first. -/
structure TrieMap where
  nextFreshLevel : Nat
  vals : List ((Nat × Int) × Nat)
  childs : List ((Nat × Int) × Nat)
  deriving DecidableEq

/-- Largest storable payload, `(1 << 36) - 1` (spec §4.1). -/
def TrieMap.MAX_VALUE : Nat := 2 ^ 36 - 1

/-- Reserved index returned on allocation failure (spec §4.1). -/
def TrieMap.INVALID_INDEX : Int := -1

/-- Bitmap entry index of the root level. -/
def TrieMap.rootBitmapEntryIndex : Nat := 0

/-- The empty `TrieMap`: no values, no child levels, first fresh level is 1. -/
def TrieMap.empty : TrieMap := ⟨1, [], []⟩

/-- First binding of a (level, key) pair in an association list. -/
def assocFind (l : List ((Nat × Int) × Nat)) (k : Nat × Int) : Option Nat :=
  (l.find? (fun e => decide (e.1 = k))).map (fun e => e.2)

/-- `TrieMap::put(key, value, bitmapEntryIndex)`: upsert into the level rooted
at `idx`; fails (returning `false` and leaving the map unchanged) only when
the value exceeds `MAX_VALUE` (spec §4.1). -/
def TrieMap.put (m : TrieMap) (key : Int) (value : Nat) (idx : Nat) : Bool × TrieMap :=
  if value ≤ TrieMap.MAX_VALUE then
    (true, { m with vals := ((idx, key), value) :: m.vals })
  else (false, m)

/-- `TrieMap::putRoot(key, value)`: upsert into the root level. -/
def TrieMap.putRoot (m : TrieMap) (key : Int) (value : Nat) : Bool × TrieMap :=
  m.put key value TrieMap.rootBitmapEntryIndex

/-- `TrieMap::get(key, bitmapEntryIndex)`: the most recent value written for
`key` under level `idx`, or an invalid node on a miss. -/
def TrieMap.get (m : TrieMap) (key : Int) (idx : Nat) : TrieMapResult :=
  match assocFind m.vals (idx, key) with
  | some v =>
      ⟨true, v, match assocFind m.childs (idx, key) with
        | some c => (c : Int)
        | none => TrieMap.INVALID_INDEX⟩
  | none => ⟨false, 0, TrieMap.INVALID_INDEX⟩

/-- `TrieMap::getRoot(key)`: lookup in the root level. -/
def TrieMap.getRoot (m : TrieMap) (key : Int) : TrieMapResult :=
  m.get key TrieMap.rootBitmapEntryIndex

/-- `TrieMap::getNextLevelBitmapEntryIndex(key, bitmapEntryIndex)`: return the
child level of `key` within level `idx`, allocating a fresh one if absent.
The model never exhausts capacity, so `INVALID_INDEX` is never produced
(spec §4.1: `INVALID_INDEX` only on allocation failure). -/
def TrieMap.getNextLevelBitmapEntryIndexAt (m : TrieMap) (key : Int) (idx : Nat) :
    Nat × TrieMap :=
  match assocFind m.childs (idx, key) with
  | some c => (c, m)
  | none =>
      (m.nextFreshLevel,
        { m with
          nextFreshLevel := m.nextFreshLevel + 1,
          childs := ((idx, key), m.nextFreshLevel) :: m.childs })

/-- `TrieMap::getNextLevelBitmapEntryIndex(key)`: child level within the root. -/
def TrieMap.getNextLevelBitmapEntryIndexRoot (m : TrieMap) (key : Int) : Nat × TrieMap :=
  m.getNextLevelBitmapEntryIndexAt key TrieMap.rootBitmapEntryIndex

/-- A write operation issued against a `TrieMap`. -/
inductive TrieOp
  | put (key : Int) (value : Nat) (idx : Nat)
  | nextLevel (key : Int) (idx : Nat)
  deriving DecidableEq

/-- Whether an operation writes a value for `key` under level `idx`. -/
def TrieOp.writesVal : TrieOp → Nat → Int → Bool
  | .put k _ i, idx, key => decide (i = idx) && decide (k = key)
  | .nextLevel _ _, _, _ => false

/-- Apply one operation to a `TrieMap`. -/
def TrieMap.step (m : TrieMap) : TrieOp → TrieMap
  | .put k v i => (m.put k v i).2
  | .nextLevel k i => (m.getNextLevelBitmapEntryIndexAt k i).2

/-- Apply a sequence of operations in order. -/
def TrieMap.runOps (ops : List TrieOp) (m : TrieMap) : TrieMap :=
  ops.foldl TrieMap.step m

/-- Modelled from the spec: `getNextWordAndNextToken` of the dictionary
structure policy (the structure-policy implementation is not among the
sources).  Spec §3 and §4.2: token `0` starts or restarts a deterministic
traversal of all words, each call returns the current word together with the
cursor for the next call, and a returned `0` terminates the iteration.
Tokens are modelled as positions in the traversal order. -/
def dictGetNextWordAndNextToken {α : Type} (dflt : α) (ws : List α) (token : Nat) :
    α × Nat :=
  if h : token < ws.length then
    (ws.get ⟨token, h⟩, if token + 1 < ws.length then token + 1 else 0)
  else (dflt, 0)

/-- Embedding of `latinime_BinaryDictionary_getNextWord` (JNI source file,
lines 459-474): a null handle yields token `0`; an output codepoint array
whose length differs from `MAX_WORD_LENGTH` refuses the operation and yields
token `0` without consulting the dictionary; otherwise the dictionary's
iterator runs.  The second component is the word written to the output
buffer, the third records whether the dictionary was consulted. -/
def latinime_getNextWord {α : Type} (dflt : α) (dict : Option (List α)) (token : Nat)
    (outCodePointsLength : Nat) : Nat × Option α × Bool :=
  match dict with
  | none => (0, none, false)
  | some ws =>
      if outCodePointsLength ≠ MAX_WORD_LENGTH then (0, none, false)
      else
        let r := dictGetNextWordAndNextToken dflt ws token
        (r.2, some r.1, true)

/-- Words produced by driving the iteration protocol from a given token:
collect each returned word and stop as soon as the returned token is `0`. -/
def enumWordsAux {α : Type} (dflt : α) (ws : List α) : Nat → Nat → List α
  | 0, _ => []
  | fuel + 1, token =>
      let r := dictGetNextWordAndNextToken dflt ws token
      r.1 :: (if r.2 = 0 then [] else enumWordsAux dflt ws fuel r.2)

/-- Words produced by a full iteration starting from token `0`. -/
def enumWords {α : Type} (dflt : α) (ws : List α) : List α :=
  enumWordsAux dflt ws ws.length 0

/-- Unigram record attached to a word (spec §3): flags, probability,
historical counters and the shortcut list. -/
structure UnigramProperty where
  isNotAWord : Bool
  isBlacklisted : Bool
  probability : Int
  timestamp : Int
  level : Int
  count : Int
  shortcuts : List (List Int × Int)
  deriving DecidableEq

/-- Bigram record (spec §3): target word, probability, historical counters. -/
structure BigramProperty where
  targetCodePoints : List Int
  probability : Int
  timestamp : Int
  level : Int
  count : Int
  deriving DecidableEq

/-- One element of the `LanguageModelParam` array passed to
`addMultipleDictionaryEntries` (JNI source file, lines 564-612): optional
`word0`, required `word1`, probabilities, timestamp, optional shortcut
(empty target meaning absent) and flags. -/
structure LanguageModelParam where
  word0 : Option (List Int)
  word1 : List Int
  unigramProbability : Int
  bigramProbability : Int
  timestamp : Int
  shortcutTarget : List Int
  shortcutProbability : Int
  isNotAWord : Bool
  isBlacklisted : Bool
  deriving DecidableEq

/-- Mutation interface of a live `Dictionary` handle as used by the batched
JNI entry point: `Dictionary::addUnigramWord` and
`Dictionary::addBigramWords` mutate the store (they return `void`), and
`needsToRunGC` probes it. -/
structure DictMutOps (D : Type) where
  addUnigramWord : D → List Int → UnigramProperty → D
  addBigramWords : D → List Int → BigramProperty → D
  needsToRunGC : D → Bool

/-- `UnigramProperty` built for one entry (JNI source file, lines 605-615):
level 0, count 1, and a one-element shortcut list when the entry's shortcut
target is non-empty. -/
def LanguageModelParam.unigramProperty (e : LanguageModelParam) : UnigramProperty :=
  ⟨e.isNotAWord, e.isBlacklisted, e.unigramProbability, e.timestamp, 0, 1,
    if e.shortcutTarget = [] then [] else [(e.shortcutTarget, e.shortcutProbability)]⟩

/-- `BigramProperty` built for one entry (JNI source file, lines 618-623):
target `word1`, level 0, count 1. -/
def LanguageModelParam.bigramProperty (e : LanguageModelParam) : BigramProperty :=
  ⟨e.word1, e.bigramProbability, e.timestamp, 0, 1⟩

/-- Body of the batched-insertion loop (JNI source file, lines 582-625):
insert the entry's `word1` unigram, then its `word0 → word1` bigram when
`word0` is present. -/
def processEntry {D : Type} (ops : DictMutOps D) (st : D) (e : LanguageModelParam) : D :=
  let st1 := ops.addUnigramWord st e.word1 e.unigramProperty
  match e.word0 with
  | some w0 => ops.addBigramWords st1 w0 e.bigramProperty
  | none => st1

/-- The for-loop of `latinime_BinaryDictionary_addMultipleDictionaryEntries`
(JNI source file, lines 582-634): process entries in index order; after each
entry, if `needsToRunGC(true)` holds return the index of the next unprocessed
entry, otherwise at the end of the array return the entry count.  The fuel
argument only bounds recursion; the wrapper supplies enough for the loop to
run to its source-level exit. -/
def addEntriesLoop {D : Type} (ops : DictMutOps D) (entries : List LanguageModelParam) :
    Nat → Nat → D → Nat × D
  | 0, _, st => (entries.length, st)
  | fuel + 1, i, st =>
      if h : i < entries.length then
        let st1 := processEntry ops st entries[i]
        if ops.needsToRunGC st1 then (i + 1, st1)
        else addEntriesLoop ops entries fuel (i + 1) st1
      else (entries.length, st)

/-- Embedding of `latinime_BinaryDictionary_addMultipleDictionaryEntries`
(JNI source file, lines 550-635): a null handle returns `0`; an empty entry
array or a start index at or beyond the entry count returns `0` with the
store untouched; otherwise the insertion loop runs from `startIndex`. -/
def latinime_addMultipleDictionaryEntries {D : Type} (ops : DictMutOps D)
    (dict : Option D) (entries : List LanguageModelParam) (startIndex : Nat) :
    Nat × Option D :=
  match dict with
  | none => (0, none)
  | some st =>
      if entries.length = 0 ∨ startIndex ≥ entries.length then (0, some st)
      else
        let r := addEntriesLoop ops entries entries.length startIndex st
        (r.1, some r.2)

/-- State reached after processing `count` consecutive entries starting at
index `i`, in order. -/
def processFrom {D : Type} (ops : DictMutOps D) (entries : List LanguageModelParam) :
    Nat → Nat → D → D
  | _, 0, st => st
  | i, count + 1, st =>
      if h : i < entries.length then
        processFrom ops entries (i + 1) count (processEntry ops st entries[i])
      else st

/-- Concrete dictionary-op fixture used by the C1 witness: the state counts
unigram insertions and garbage collection is never requested. -/
def witOpsC1 : DictMutOps Nat :=
  ⟨fun s _ _ => s + 1, fun s _ _ => s, fun _ => false⟩

/-- Concrete one-entry fixture used by the C1 witness. -/
def witEntriesC1 : List LanguageModelParam :=
  [⟨none, [1], 10, 0, 0, [], 0, false, false⟩]

/-- Read-only export of one word (spec §3 `WordProperty`): its unigram record
and its outgoing bigrams. -/
structure WordProperty where
  unigram : UnigramProperty
  bigrams : List BigramProperty
  deriving DecidableEq

/-- Default source entry returned by the iterator model past the end of the
word list (only reachable for an empty dictionary). -/
def dfltSrcEntry : List Int × WordProperty :=
  ([], ⟨⟨false, false, NOT_A_PROBABILITY, 0, 0, 0, []⟩, []⟩)

/-- Interface of the freshly constructed target-version dictionary consumed
by `latinime_BinaryDictionary_migrateNative`: a garbage-collection probe,
fallible unigram and bigram insertion (the structure policy returns a
boolean), and `runGCAndGetNewStructurePolicy` (JNI source file, lines
672-679), which flushes with GC to the given path and reopens — `none` when
the reopen fails. -/
structure NewDictOps (N P : Type) where
  needsToRunGC : N → Bool
  addUnigramWord : N → List Int → UnigramProperty → Option N
  addBigramWords : N → List Int → BigramProperty → Option N
  gcReopen : N → P → Option N

/-- Outcome of a migration run: the returned boolean, the final new
dictionary when successful, the file paths written (in order), and the
result of each insertion attempted (in order). -/
structure MigrateResult (N P : Type) where
  ok : Bool
  newDict : Option N
  writes : List P
  insertResults : List Bool
  deriving DecidableEq

/-- Intermediate-GC step of the migration loops (JNI source file, lines
710-717 and 730-736): when the new dictionary reports `needsToRunGC(true)`,
flush it with GC to `path` (recording the write) and reopen. -/
def gcStep {N P : Type} (ops : NewDictOps N P) (path : P) (nd : N) (ws : List P) :
    Option N × List P :=
  if ops.needsToRunGC nd then (ops.gcReopen nd path, ws ++ [path]) else (some nd, ws)

/-- Unigram phase of `migrateNative` (JNI source file, lines 706-723): per
token, fetch the word and its `WordProperty`, take an intermediate GC when
needed, insert the unigram into the new dictionary (aborting the migration
with `false` when the insertion or the GC reopen fails), and continue until
the returned token is `0`. -/
def migrateUnigramLoop {N P : Type} (ops : NewDictOps N P) (path : P)
    (src : List (List Int × WordProperty)) :
    Nat → Nat → N → List P → List Bool → MigrateResult N P ⊕ (N × List P × List Bool)
  | 0, _, nd, ws, irs => Sum.inr (nd, ws, irs)
  | fuel + 1, token, nd, ws, irs =>
      match gcStep ops path nd ws with
      | (none, ws1) => Sum.inl ⟨false, none, ws1, irs⟩
      | (some nd1, ws1) =>
          match ops.addUnigramWord nd1 (dictGetNextWordAndNextToken dfltSrcEntry src token).1.1
              (dictGetNextWordAndNextToken dfltSrcEntry src token).1.2.unigram with
          | none => Sum.inl ⟨false, none, ws1, irs ++ [false]⟩
          | some nd2 =>
              if (dictGetNextWordAndNextToken dfltSrcEntry src token).2 = 0 then
                Sum.inr (nd2, ws1, irs ++ [true])
              else
                migrateUnigramLoop ops path src fuel
                  (dictGetNextWordAndNextToken dfltSrcEntry src token).2 nd2 ws1 (irs ++ [true])

/-- Inner bigram insertion loop (JNI source file, lines 738-744): insert each
bigram of the current word, stopping at the first failure. -/
def addBigramsAll {N P : Type} (ops : NewDictOps N P) (word : List Int) :
    N → List BigramProperty → List Bool → Option N × List Bool
  | nd, [], irs => (some nd, irs)
  | nd, b :: rest, irs =>
      match ops.addBigramWords nd word b with
      | none => (none, irs ++ [false])
      | some nd1 => addBigramsAll ops word nd1 rest (irs ++ [true])

/-- Bigram phase of `migrateNative` (JNI source file, lines 726-745):
restart iteration, take an intermediate GC when needed, insert every bigram
of every word (aborting the migration with `false` on failure), and continue
until the returned token is `0`. -/
def migrateBigramLoop {N P : Type} (ops : NewDictOps N P) (path : P)
    (src : List (List Int × WordProperty)) :
    Nat → Nat → N → List P → List Bool → MigrateResult N P ⊕ (N × List P × List Bool)
  | 0, _, nd, ws, irs => Sum.inr (nd, ws, irs)
  | fuel + 1, token, nd, ws, irs =>
      match gcStep ops path nd ws with
      | (none, ws1) => Sum.inl ⟨false, none, ws1, irs⟩
      | (some nd1, ws1) =>
          match addBigramsAll ops (dictGetNextWordAndNextToken dfltSrcEntry src token).1.1 nd1
              (dictGetNextWordAndNextToken dfltSrcEntry src token).1.2.bigrams irs with
          | (none, irs1) => Sum.inl ⟨false, none, ws1, irs1⟩
          | (some nd2, irs1) =>
              if (dictGetNextWordAndNextToken dfltSrcEntry src token).2 = 0 then
                Sum.inr (nd2, ws1, irs1)
              else
                migrateBigramLoop ops path src fuel
                  (dictGetNextWordAndNextToken dfltSrcEntry src token).2 nd2 ws1 irs1

/-- Embedding of `latinime_BinaryDictionary_migrateNative` (JNI source file,
lines 681-749): a null handle fails; a failed construction of the new
on-memory dictionary fails; otherwise all unigrams and then all bigrams of
the source are re-inserted via the iteration protocol, and on success the new
dictionary is flushed with GC to `path` and `true` is returned.  The source
dictionary is only ever read. -/
def latinime_migrateNative {N P : Type} (ops : NewDictOps N P)
    (dict : Option (List (List Int × WordProperty))) (path : P) (init : Option N) :
    MigrateResult N P :=
  match dict with
  | none => ⟨false, none, [], []⟩
  | some src =>
      match init with
      | none => ⟨false, none, [], []⟩
      | some n0 =>
          match migrateUnigramLoop ops path src src.length 0 n0 [] [] with
          | Sum.inl r => r
          | Sum.inr (n1, ws1, irs1) =>
              match migrateBigramLoop ops path src src.length 0 n1 ws1 irs1 with
              | Sum.inl r => r
              | Sum.inr (n2, ws2, irs2) => ⟨true, some n2, ws2 ++ [path], irs2⟩

/-- Modelled from the spec: the freshly constructed target-version dictionary
(the structure-policy implementation is not among the sources).  Spec §4.2:
a mapping from words to their unigram record and outgoing bigram list,
modelled as an association list where the most recent binding for a word
wins. -/
def ModelDict : Type := List (List Int × (UnigramProperty × List BigramProperty))

/-- Public lookup of a word in the model dictionary (its `getWordProperty`
view: unigram record and bigram list, `none` for an absent word). -/
def modelLookup (d : ModelDict) (w : List Int) :
    Option (UnigramProperty × List BigramProperty) :=
  (d.find? (fun e => decide (e.1 = w))).map (fun e => e.2)

/-- Modelled from the spec: `addUnigramWord` of the new dictionary (spec
§4.2: inserts or updates; on update the unigram record is replaced and the
word's existing bigrams are preserved). -/
def modelInsertUnigram (d : ModelDict) (w : List Int) (up : UnigramProperty) : ModelDict :=
  (w, (up, match modelLookup d w with
    | some pr => pr.2
    | none => [])) :: d

/-- Upsert into a bigram list keyed by target word (spec §4.3: per source the
target positions are unique). -/
def upsertBigram (bgs : List BigramProperty) (bp : BigramProperty) : List BigramProperty :=
  if bgs.any (fun b => decide (b.targetCodePoints = bp.targetCodePoints)) then
    bgs.map (fun b => if b.targetCodePoints = bp.targetCodePoints then bp else b)
  else bgs ++ [bp]

/-- Modelled from the spec: `addBigramWords` of the new dictionary (spec
§4.3: fails with `false` when the source word does not exist, otherwise
upserts keyed by target). -/
def modelAddBigram (d : ModelDict) (w : List Int) (bp : BigramProperty) :
    Option ModelDict :=
  match modelLookup d w with
  | none => none
  | some pr => some ((w, (pr.1, upsertBigram pr.2 bp)) :: d)

/-- Modelled from the spec: the operation record of the new dictionary used
during migration.  `flushWithGC` followed by a reopen preserves the public
semantics (spec §4.5), so `gcReopen` returns the dictionary unchanged; the
GC probe is an arbitrary predicate. -/
def modelOps {P : Type} (gc : ModelDict → Bool) : NewDictOps ModelDict P :=
  ⟨gc, fun d w up => some (modelInsertUnigram d w up),
    fun d w bp => modelAddBigram d w bp,
    fun d _ => some d⟩

/-- Unigram phase over a list of source entries as a pure fold. -/
def uniFold (d : ModelDict) (es : List (List Int × WordProperty)) : ModelDict :=
  es.foldl (fun d e => modelInsertUnigram d e.1 e.2.unigram) d

/-- The source dictionary's own `getWordProperty` view of a word. -/
def sourceLookup (src : List (List Int × WordProperty)) (w : List Int) :
    Option (UnigramProperty × List BigramProperty) :=
  (src.find? (fun e => decide (e.1 = w))).map (fun e => (e.2.unigram, e.2.bigrams))

/-- Probability of the bigram targeting `w1` within a bigram list,
`NOT_A_PROBABILITY` when absent. -/
def bigramProbabilityIn (bgs : List BigramProperty) (w1 : List Int) : Int :=
  match bgs.find? (fun b => decide (b.targetCodePoints = w1)) with
  | some b => b.probability
  | none => NOT_A_PROBABILITY

/-- Bigram query against the migrated model dictionary. -/
def modelGetBigramProbability (d : ModelDict) (w0 w1 : List Int) : Int :=
  match modelLookup d w0 with
  | some pr => bigramProbabilityIn pr.2 w1
  | none => NOT_A_PROBABILITY

/-- Bigram query against the source dictionary. -/
def sourceGetBigramProbability (src : List (List Int × WordProperty)) (w0 w1 : List Int) :
    Int :=
  match sourceLookup src w0 with
  | some pr => bigramProbabilityIn pr.2 w1
  | none => NOT_A_PROBABILITY

/-- Concrete new-dictionary ops fixture used by the C2 witness: unigram
insertion always fails, garbage collection is never requested. -/
def witOpsC2 : NewDictOps Nat Nat :=
  ⟨fun _ => false, fun _ _ _ => none, fun n _ _ => some n, fun n _ => some n⟩

/-- Concrete one-word source fixture used by the C2 witness. -/
def witSrcC2 : List (List Int × WordProperty) :=
  [([1], ⟨⟨false, false, 10, 0, 0, 0, []⟩, []⟩)]

/-- Concrete two-word source fixture used by the C3 witness: word `[1]`
carries a bigram to word `[2]`. -/
def witSrcC3 : List (List Int × WordProperty) :=
  [([1], ⟨⟨false, false, 100, 0, 0, 1, []⟩, [⟨[2], 120, 0, 0, 1⟩]⟩),
   ([2], ⟨⟨false, false, 80, 0, 0, 1, []⟩, []⟩)]

/-- Write log of a migration phase outcome. -/
def phaseWrites {N P : Type} : MigrateResult N P ⊕ (N × List P × List Bool) → List P
  | Sum.inl r => r.writes
  | Sum.inr (_, ws, _) => ws

/-- Abstract behaviour of a live dictionary handle, used to embed the JNI
entry points that delegate after their null-handle guard. -/
structure DictHandle where
  getProbability : List Int → Int
  getBigramProbability : List Int → List Int → Int
  needsToRunGC : Bool → Bool
  isCorrupted : Bool
  formatVersion : Int
  calculateProbability : Int → Int → Int
  getProperty : String → String
  runSuggest : Nat

/-- Embedding of `latinime_BinaryDictionary_open` (JNI source file, lines
211-236), restricted to its result contract: when the structure-policy
factory yields nothing the null handle `0` is returned, otherwise a nonzero
handle to the freshly built dictionary. -/
def latinime_open {α : Type} (newPolicy : Option α) (freshHandle : Nat) : Nat :=
  match newPolicy with
  | none => 0
  | some _ => freshHandle + 1

/-- Embedding of `latinime_BinaryDictionary_getProbability` (JNI source file,
lines 432-440): `NOT_A_PROBABILITY` on a null handle. -/
def latinime_getProbability (dict : Option DictHandle) (word : List Int) : Int :=
  match dict with
  | none => NOT_A_PROBABILITY
  | some d => d.getProbability word

/-- Embedding of `latinime_BinaryDictionary_getBigramProbability` (JNI source
file, lines 442-454): `JNI_FALSE`, that is `0`, on a null handle. -/
def latinime_getBigramProbability (dict : Option DictHandle) (w0 w1 : List Int) : Int :=
  match dict with
  | none => 0
  | some d => d.getBigramProbability w0 w1

/-- Embedding of `latinime_BinaryDictionary_needsToRunGC` (JNI source file,
lines 277-282): `false` on a null handle. -/
def latinime_needsToRunGC (dict : Option DictHandle) (mindsBlockByGC : Bool) : Bool :=
  match dict with
  | none => false
  | some d => d.needsToRunGC mindsBlockByGC

/-- Embedding of `latinime_BinaryDictionary_isCorruptedNative` (JNI source
file, lines 664-670): `false` on a null handle. -/
def latinime_isCorrupted (dict : Option DictHandle) : Bool :=
  match dict with
  | none => false
  | some d => d.isCorrupted

/-- Embedding of `latinime_BinaryDictionary_getFormatVersion` (JNI source
file, lines 336-342): `0` on a null handle. -/
def latinime_getFormatVersion (dict : Option DictHandle) : Int :=
  match dict with
  | none => 0
  | some d => d.formatVersion

/-- Embedding of `latinime_BinaryDictionary_calculateProbabilityNative` (JNI
source file, lines 637-645): `NOT_A_PROBABILITY` on a null handle. -/
def latinime_calculateProbability (dict : Option DictHandle)
    (unigramProbability bigramProbability : Int) : Int :=
  match dict with
  | none => NOT_A_PROBABILITY
  | some d => d.calculateProbability unigramProbability bigramProbability

/-- Embedding of `latinime_BinaryDictionary_getProperty` (JNI source file,
lines 647-662): the empty string on a null handle. -/
def latinime_getProperty (dict : Option DictHandle) (query : String) : String :=
  match dict with
  | none => ""
  | some d => d.getProperty query

/-- Embedding of `latinime_BinaryDictionary_getSuggestions` (JNI source file,
lines 344-430), restricted to the suggestion count it stores in
`outSuggestionCount`: `0` is written first and the function returns without
consulting the dictionary when the handle is null. -/
def latinime_getSuggestions (dict : Option DictHandle) : Nat :=
  match dict with
  | none => 0
  | some d => d.runSuggest

end LatinIME

namespace LatinIME

/-- Claim C4: `Dictionary::getProbability` resolves the terminal position via
`getTerminalPtNodePositionOfWord` with `forceLowerCaseSearch = false` and
returns that terminal's unigram probability; when the lookup yields
`NOT_A_DICT_POS` it returns `NOT_A_PROBABILITY`. -/
theorem getProbability_spec (p : DictionaryStructurePolicy) (word : List Int) :
    (p.getTerminalPtNodePositionOfWord word false = NOT_A_DICT_POS →
      Dictionary.getProbability p word = NOT_A_PROBABILITY) ∧
    (p.getTerminalPtNodePositionOfWord word false ≠ NOT_A_DICT_POS →
      Dictionary.getProbability p word =
        p.getUnigramProbabilityOfPtNode (p.getTerminalPtNodePositionOfWord word false)) := by
  constructor
  · intro h
    simp [Dictionary.getProbability, h]
  · intro h
    simp [Dictionary.getProbability, h]

/-- Witness for C4 at a concrete structure policy: a word absent from the
dictionary yields `NOT_A_PROBABILITY`, a present one its unigram probability. -/
theorem getProbability_spec_witness :
    Dictionary.getProbability ⟨fun w _ => if w = [104] then 7 else NOT_A_DICT_POS,
        fun pos => pos + 100⟩ [105] = NOT_A_PROBABILITY ∧
    Dictionary.getProbability ⟨fun w _ => if w = [104] then 7 else NOT_A_DICT_POS,
        fun pos => pos + 100⟩ [104] = 107 := by
  refine ⟨(getProbability_spec ⟨fun w _ => if w = [104] then 7 else NOT_A_DICT_POS,
    fun pos => pos + 100⟩ [105]).1 (by decide), ?_⟩
  have h := (getProbability_spec ⟨fun w _ => if w = [104] then 7 else NOT_A_DICT_POS,
    fun pos => pos + 100⟩ [104]).2 (by decide)
  simpa using h

/-- Claim C7: every public façade operation advances the process-wide logical
clock before delegating to any store operation (its event trace begins with
`setTime`), a call strictly increases the clock, and the clock is monotone
over any run of façade calls. -/
theorem facade_clock_spec :
    (∀ (c : FacadeCall) (g : Bool) (l : Int), ∃ rest,
        Dictionary.facadeEvents c g l = Ev.setTime :: rest) ∧
    (∀ (c : FacadeCall) (g : Bool) (l : Int) (clock : Nat),
        clock < (Dictionary.runFacadeCall c g l clock).1) ∧
    (∀ (cs : List (FacadeCall × Bool × Int)) (clock : Nat),
        clock ≤ Dictionary.runFacadeCalls cs clock) := by
  refine ⟨?_, ?_, ?_⟩
  · intro c g l
    cases c <;> simp [Dictionary.facadeEvents, Dictionary.getSuggestionsEvents]
  · intro c g l clock
    simp [Dictionary.runFacadeCall, TimeKeeper.setCurrentTime]
  · intro cs
    induction cs with
    | nil => intro clock; simp [Dictionary.runFacadeCalls]
    | cons c rest ih =>
        intro clock
        have h1 : clock ≤ (Dictionary.runFacadeCall c.1 c.2.1 c.2.2 clock).1 := by
          simp [Dictionary.runFacadeCall, TimeKeeper.setCurrentTime]
        calc clock ≤ (Dictionary.runFacadeCall c.1 c.2.1 c.2.2 clock).1 := h1
          _ ≤ Dictionary.runFacadeCalls rest (Dictionary.runFacadeCall c.1 c.2.1 c.2.2 clock).1 :=
              ih _
          _ = Dictionary.runFacadeCalls (c :: rest) clock := by
              simp [Dictionary.runFacadeCalls]

/-- Claim C8: `Dictionary::getSuggestions` initialises the traversal session
and then delegates to exactly one suggestion engine, chosen solely by
`SuggestOptions.isGesture()`: the gesture engine iff it is true, the typing
engine iff it is false. -/
theorem getSuggestions_engine_spec (g : Bool) :
    Dictionary.getSuggestionsEvents g =
      [Ev.setTime, Ev.initSession, if g then Ev.gestureEngine else Ev.typingEngine] ∧
    (Dictionary.getSuggestionsEvents g).count Ev.gestureEngine =
      (if g then 1 else 0) ∧
    (Dictionary.getSuggestionsEvents g).count Ev.typingEngine =
      (if g then 0 else 1) := by
  cases g <;> refine ⟨rfl, by decide, by decide⟩

/-- Claim C9: `Dictionary::getPredictions` with context length at most zero
refuses the operation: the bigram store is not consulted and the output
collector is returned unchanged. -/
theorem getPredictions_refusal_spec {S : Type} (bg : List Int → S → S)
    (word : List Int) (length : Int) (out : S) (h : length ≤ 0) :
    Dictionary.getPredictions bg word length out = (out, false) := by
  simp [Dictionary.getPredictions, h]

/-- Witness for C9 at a concrete collector: a call with context length `0`
leaves the collector `[1, 2]` unchanged and reports no bigram-store access. -/
theorem getPredictions_refusal_spec_witness :
    Dictionary.getPredictions (fun _ s => 99 :: s) [104] 0 [1, 2] = ([1, 2], false) :=
  getPredictions_refusal_spec (fun _ s => 99 :: s) [104] 0 [1, 2] (by decide)

/-- Finding the key just bound at the head of an association list. -/
theorem assocFind_cons_self (l : List ((Nat × Int) × Nat)) (k : Nat × Int) (v : Nat) :
    assocFind ((k, v) :: l) k = some v := by
  simp [assocFind]

/-- A binding for a different (level, key) pair does not shadow a lookup. -/
theorem assocFind_cons_ne (l : List ((Nat × Int) × Nat)) (k k' : Nat × Int) (v : Nat)
    (h : k' ≠ k) : assocFind ((k', v) :: l) k = assocFind l k := by
  have hp : (decide ((k' : Nat × Int) = k)) = false := by simp [h]
  simp [assocFind, List.find?_cons, hp]

/-- A `put` under one (level, key) target leaves lookups at any other
(level, key) target untouched. -/
theorem trieMap_get_put_other (m : TrieMap) (k k' : Int) (v' idx idx' : Nat)
    (h : (idx', k') ≠ (idx, k)) :
    ((m.put k' v' idx').2).get k idx = m.get k idx := by
  by_cases hv : v' ≤ TrieMap.MAX_VALUE
  · simp [TrieMap.put, hv, TrieMap.get, assocFind_cons_ne _ _ _ _ h]
  · simp [TrieMap.put, hv]

/-- A step that does not write a value for `key` under level `idx` preserves
the absence of a value binding there. -/
theorem trieMap_step_preserves_miss (m : TrieMap) (op : TrieOp) (k : Int) (idx : Nat)
    (hop : TrieOp.writesVal op idx k = false)
    (hm : assocFind m.vals (idx, k) = none) :
    assocFind (TrieMap.step m op).vals (idx, k) = none := by
  cases op with
  | put k0 v0 i0 =>
      have hne : ((i0, k0) : Nat × Int) ≠ (idx, k) := by
        intro hcontra
        rw [Prod.mk.injEq] at hcontra
        simp [TrieOp.writesVal, hcontra.1, hcontra.2] at hop
      by_cases hv : v0 ≤ TrieMap.MAX_VALUE
      · simpa [TrieMap.step, TrieMap.put, hv, assocFind_cons_ne _ _ _ _ hne] using hm
      · simpa [TrieMap.step, TrieMap.put, hv] using hm
  | nextLevel k0 i0 =>
      cases hfind : assocFind m.childs (i0, k0) <;>
        simpa [TrieMap.step, TrieMap.getNextLevelBitmapEntryIndexAt, hfind] using hm

/-- A run of operations none of which writes a value for `key` under level
`idx` preserves the absence of a value binding there. -/
theorem trieMap_runOps_preserves_miss (ops : List TrieOp) (m : TrieMap) (k : Int)
    (idx : Nat) (h : ∀ op ∈ ops, TrieOp.writesVal op idx k = false)
    (hm : assocFind m.vals (idx, k) = none) :
    assocFind (TrieMap.runOps ops m).vals (idx, k) = none := by
  induction ops generalizing m with
  | nil => simpa [TrieMap.runOps] using hm
  | cons op rest ih =>
      have hstep := trieMap_step_preserves_miss m op k idx (h op (by simp)) hm
      have hrest : ∀ op' ∈ rest, TrieOp.writesVal op' idx k = false := by
        intro op' hmem
        exact h op' (by simp [hmem])
      simpa [TrieMap.runOps] using ih (TrieMap.step m op) hrest hstep

/-- Claim C5: `TrieMap` read/write semantics.  The last `putRoot` for a key
wins at the root; a `put` of a value up to `MAX_VALUE` under any level index
succeeds and reads back exactly; writes to a different (level, key) target —
in particular writes under a sibling level index — are never observable; and
a key never written within a level reads back as an invalid node. -/
theorem trieMap_spec :
    (∀ (m : TrieMap) (k : Int) (v v' : Nat), v' ≤ TrieMap.MAX_VALUE →
        (((m.putRoot k v).2.putRoot k v').2.getRoot k).mIsValid = true ∧
        (((m.putRoot k v).2.putRoot k v').2.getRoot k).mValue = v') ∧
    (∀ (m : TrieMap) (k : Int) (v idx : Nat), v ≤ TrieMap.MAX_VALUE →
        (m.put k v idx).1 = true ∧
        ((m.put k v idx).2.get k idx).mIsValid = true ∧
        ((m.put k v idx).2.get k idx).mValue = v) ∧
    (∀ (m : TrieMap) (k k' : Int) (v' idx idx' : Nat), (idx', k') ≠ (idx, k) →
        ((m.put k' v' idx').2).get k idx = m.get k idx) ∧
    (∀ (m : TrieMap) (k k' : Int) (v' idx idx' : Nat), idx' ≠ idx →
        ((m.put k' v' idx').2).get k idx = m.get k idx) ∧
    (∀ (ops : List TrieOp) (k : Int) (idx : Nat),
        (∀ op ∈ ops, TrieOp.writesVal op idx k = false) →
        ((TrieMap.runOps ops TrieMap.empty).get k idx).mIsValid = false) := by
  have hroundtrip : ∀ (m : TrieMap) (k : Int) (v idx : Nat), v ≤ TrieMap.MAX_VALUE →
      (m.put k v idx).1 = true ∧
      ((m.put k v idx).2.get k idx).mIsValid = true ∧
      ((m.put k v idx).2.get k idx).mValue = v := by
    intro m k v idx hv
    refine ⟨by simp [TrieMap.put, hv], ?_, ?_⟩ <;>
      simp [TrieMap.put, hv, TrieMap.get, assocFind_cons_self]
  refine ⟨?_, hroundtrip, fun m k k' v' idx idx' h => trieMap_get_put_other m k k' v' idx idx' h,
      ?_, ?_⟩
  · intro m k v v' hv'
    exact hroundtrip (m.putRoot k v).2 k v' TrieMap.rootBitmapEntryIndex hv' |>.2
  · intro m k k' v' idx idx' h
    exact trieMap_get_put_other m k k' v' idx idx' (by
      intro hcontra
      rw [Prod.mk.injEq] at hcontra
      exact h hcontra.1)
  · intro ops k idx h
    have hmiss := trieMap_runOps_preserves_miss ops TrieMap.empty k idx h
      (by simp [TrieMap.empty, assocFind])
    simp [TrieMap.get, hmiss]

/-- Witness for C5 at concrete inputs: overwrite at the root wins, the maximal
value round-trips under level 3, a write under level 3 is invisible under
level 5, and a never-written key reads back invalid. -/
theorem trieMap_spec_witness :
    (((TrieMap.empty.putRoot 10 10).2.putRoot 10 1000).2.getRoot 10).mValue = 1000 ∧
    ((TrieMap.empty.put 9 TrieMap.MAX_VALUE 3).2.get 9 3).mValue = TrieMap.MAX_VALUE ∧
    ((TrieMap.empty.put 9 9 3).2).get 11 5 = TrieMap.empty.get 11 5 ∧
    ((TrieMap.runOps [TrieOp.put 7 7 0] TrieMap.empty).get 7 1).mIsValid = false :=
  ⟨(trieMap_spec.1 TrieMap.empty 10 10 1000 (by decide)).2,
   (trieMap_spec.2.1 TrieMap.empty 9 TrieMap.MAX_VALUE 3 (by decide)).2.2,
   trieMap_spec.2.2.2.1 TrieMap.empty 11 9 9 5 3 (by decide),
   trieMap_spec.2.2.2.2 [TrieOp.put 7 7 0] 7 1 (by decide)⟩

/-- Driving the iteration protocol from token `t` with enough fuel yields the
suffix of the word list starting at position `t`. -/
theorem enumWordsAux_eq_drop {α : Type} (dflt : α) (ws : List α) :
    ∀ (fuel t : Nat), t < ws.length → ws.length ≤ t + fuel →
      enumWordsAux dflt ws fuel t = ws.drop t := by
  intro fuel
  induction fuel with
  | zero => intro t h1 h2; omega
  | succ f ih =>
      intro t h1 h2
      by_cases hlt : t + 1 < ws.length
      · have hrec := ih (t + 1) hlt (by omega)
        rw [List.drop_eq_getElem_cons h1]
        simp [enumWordsAux, dictGetNextWordAndNextToken, h1, hlt, hrec]
      · have hlast : t + 1 = ws.length := by omega
        have hdrop : ws.drop (t + 1) = [] := List.drop_eq_nil_of_le (by omega)
        rw [List.drop_eq_getElem_cons h1, hdrop]
        simp [enumWordsAux, dictGetNextWordAndNextToken, h1, hlt]

/-- Claim C6: the word-iteration surface.  An output codepoint array whose
length differs from `MAX_WORD_LENGTH` makes `getNextWord` refuse the
operation and return the sentinel `0` without consulting the dictionary;
starting from token `0` and following each returned non-zero token until a
`0` is returned enumerates exactly the dictionary's words; and the returned
token is `0` precisely at the traversal's last word. -/
theorem getNextWord_spec :
    (∀ (α : Type) (dflt : α) (dict : Option (List α)) (token outLen : Nat),
        outLen ≠ MAX_WORD_LENGTH →
        latinime_getNextWord dflt dict token outLen = (0, none, false)) ∧
    (∀ (α : Type) (dflt : α) (ws : List α), ws ≠ [] → enumWords dflt ws = ws) ∧
    (∀ (α : Type) (dflt : α) (ws : List α) (token : Nat), token < ws.length →
        ((dictGetNextWordAndNextToken dflt ws token).2 = 0 ↔ token + 1 = ws.length)) := by
  refine ⟨?_, ?_, ?_⟩
  · intro α dflt dict token outLen h
    cases dict with
    | none => rfl
    | some ws => simp [latinime_getNextWord, h]
  · intro α dflt ws hne
    have hlen : 0 < ws.length := List.length_pos.mpr hne
    have h := enumWordsAux_eq_drop dflt ws ws.length 0 hlen (by omega)
    simpa [enumWords] using h
  · intro α dflt ws token h
    by_cases hlt : token + 1 < ws.length <;>
      simp [dictGetNextWordAndNextToken, h, hlt] <;> omega

/-- Witness for C6: a buffer of length 5 is refused on a live two-word
dictionary; full iteration over `[4, 5]` yields `[4, 5]`; the token returned
at the last position is `0`. -/
theorem getNextWord_spec_witness :
    latinime_getNextWord 0 (some [4, 5]) 0 5 = (0, none, false) ∧
    enumWords 0 [4, 5] = [4, 5] ∧
    (dictGetNextWordAndNextToken 0 [4, 5] 1).2 = 0 :=
  ⟨getNextWord_spec.1 Nat 0 (some [4, 5]) 0 5 (by decide),
   getNextWord_spec.2.1 Nat 0 [4, 5] (by decide),
   (getNextWord_spec.2.2 Nat 0 [4, 5] 1 (by decide)).mpr (by decide)⟩

/-- Processing one more entry at an in-range index unfolds to processing the
entry and continuing from the next index. -/
theorem processFrom_succ_lt {D : Type} (ops : DictMutOps D)
    (entries : List LanguageModelParam) {i : Nat} (h : i < entries.length)
    (c : Nat) (st : D) :
    processFrom ops entries i (c + 1) st =
      processFrom ops entries (i + 1) c (processEntry ops st entries[i]) := by
  simp [processFrom, h]

/-- The batched-insertion loop exits immediately when the index has reached
the entry count, returning the entry count. -/
theorem addEntriesLoop_stop {D : Type} (ops : DictMutOps D)
    (entries : List LanguageModelParam) {i : Nat} (h : ¬i < entries.length)
    (fuel : Nat) (st : D) :
    addEntriesLoop ops entries fuel i st = (entries.length, st) := by
  cases fuel <;> simp [addEntriesLoop, h]

/-- Characterisation of the batched-insertion loop: starting at an in-range
index with sufficient fuel, either garbage collection is first observed after
some entry `j` and the loop returns `j + 1` with exactly the entries up to
`j` processed, or no processed entry triggers it and the loop returns the
entry count with every remaining entry processed. -/
theorem addEntriesLoop_characterization {D : Type} (ops : DictMutOps D)
    (entries : List LanguageModelParam) :
    ∀ (fuel i : Nat) (st : D), i < entries.length → entries.length ≤ i + fuel →
      (∃ j, i ≤ j ∧ j < entries.length ∧
        ops.needsToRunGC (processFrom ops entries i (j + 1 - i) st) = true ∧
        (∀ k, i ≤ k → k < j →
          ops.needsToRunGC (processFrom ops entries i (k + 1 - i) st) = false) ∧
        addEntriesLoop ops entries fuel i st =
          (j + 1, processFrom ops entries i (j + 1 - i) st)) ∨
      ((∀ k, i ≤ k → k < entries.length →
          ops.needsToRunGC (processFrom ops entries i (k + 1 - i) st) = false) ∧
        addEntriesLoop ops entries fuel i st =
          (entries.length, processFrom ops entries i (entries.length - i) st)) := by
  intro fuel
  induction fuel with
  | zero => intro i st h1 h2; omega
  | succ f ih =>
      intro i st h1 h2
      have e1 : i + 1 - i = 1 := by omega
      have hpf1 : processFrom ops entries i 1 st = processEntry ops st entries[i] := by
        rw [processFrom_succ_lt ops entries h1 0 st]
        rfl
      by_cases hgc : ops.needsToRunGC (processEntry ops st entries[i]) = true
      · refine Or.inl ⟨i, Nat.le_refl i, h1, ?_, ?_, ?_⟩
        · rw [e1, hpf1]; exact hgc
        · intro k hk1 hk2; omega
        · rw [e1, hpf1]
          simp [addEntriesLoop, h1, hgc]
      · rw [Bool.not_eq_true] at hgc
        have hloop : addEntriesLoop ops entries (f + 1) i st =
            addEntriesLoop ops entries f (i + 1) (processEntry ops st entries[i]) := by
          simp [addEntriesLoop, h1, hgc]
        by_cases h3 : i + 1 < entries.length
        · rcases ih (i + 1) (processEntry ops st entries[i]) h3 (by omega) with
            ⟨j, hij, hjlen, hgcj, hmin, heq⟩ | ⟨hall, heq⟩
          · refine Or.inl ⟨j, by omega, hjlen, ?_, ?_, ?_⟩
            · have e2 : j + 1 - i = (j + 1 - (i + 1)) + 1 := by omega
              rw [e2, processFrom_succ_lt ops entries h1]
              exact hgcj
            · intro k hk1 hk2
              rcases Nat.eq_or_lt_of_le hk1 with hk | hk
              · rw [← hk, e1, hpf1]; exact hgc
              · have e3 : k + 1 - i = (k + 1 - (i + 1)) + 1 := by omega
                rw [e3, processFrom_succ_lt ops entries h1]
                exact hmin k (by omega) hk2
            · have e2 : j + 1 - i = (j + 1 - (i + 1)) + 1 := by omega
              rw [hloop, e2, processFrom_succ_lt ops entries h1]
              exact heq
          · refine Or.inr ⟨?_, ?_⟩
            · intro k hk1 hk2
              rcases Nat.eq_or_lt_of_le hk1 with hk | hk
              · rw [← hk, e1, hpf1]; exact hgc
              · have e3 : k + 1 - i = (k + 1 - (i + 1)) + 1 := by omega
                rw [e3, processFrom_succ_lt ops entries h1]
                exact hall k (by omega) hk2
            · have e4 : entries.length - i = (entries.length - (i + 1)) + 1 := by omega
              rw [hloop, e4, processFrom_succ_lt ops entries h1]
              exact heq
        · have e5 : entries.length - i = 1 := by omega
          refine Or.inr ⟨?_, ?_⟩
          · intro k hk1 hk2
            have hk : k = i := by omega
            rw [hk, e1, hpf1]; exact hgc
          · rw [hloop, addEntriesLoop_stop ops entries h3, e5, hpf1]

/-- Claim C1: on a live dictionary with a non-empty entry array and
`startIndex < count`, `addMultipleDictionaryEntries` processes entries in
order from `startIndex` (each entry inserting its `word1` unigram and, when
`word0` is present, the `word0 → word1` bigram); if `needsToRunGC(true)` is
first observed after processing entry `j` it returns `j + 1` with exactly the
entries up to `j` processed, otherwise it returns the entry count with all of
them processed. -/
theorem addMultipleDictionaryEntries_spec {D : Type} (ops : DictMutOps D) (st : D)
    (entries : List LanguageModelParam) (startIndex : Nat)
    (hne : entries ≠ []) (hlt : startIndex < entries.length) :
    (∃ j, startIndex ≤ j ∧ j < entries.length ∧
      ops.needsToRunGC (processFrom ops entries startIndex (j + 1 - startIndex) st) = true ∧
      (∀ k, startIndex ≤ k → k < j →
        ops.needsToRunGC (processFrom ops entries startIndex (k + 1 - startIndex) st) =
          false) ∧
      latinime_addMultipleDictionaryEntries ops (some st) entries startIndex =
        (j + 1, some (processFrom ops entries startIndex (j + 1 - startIndex) st))) ∨
    ((∀ k, startIndex ≤ k → k < entries.length →
        ops.needsToRunGC (processFrom ops entries startIndex (k + 1 - startIndex) st) =
          false) ∧
      latinime_addMultipleDictionaryEntries ops (some st) entries startIndex =
        (entries.length,
          some (processFrom ops entries startIndex (entries.length - startIndex) st))) := by
  have hlen : 0 < entries.length := List.length_pos.mpr hne
  have hguard : ¬(entries.length = 0 ∨ startIndex ≥ entries.length) := by
    push_neg
    omega
  have hres : latinime_addMultipleDictionaryEntries ops (some st) entries startIndex =
      ((addEntriesLoop ops entries entries.length startIndex st).1,
        some (addEntriesLoop ops entries entries.length startIndex st).2) := by
    simp only [latinime_addMultipleDictionaryEntries]
    rw [if_neg hguard]
  rcases addEntriesLoop_characterization ops entries entries.length startIndex st hlt
      (by omega) with ⟨j, hj1, hj2, hj3, hj4, hj5⟩ | ⟨hall, heq⟩
  · exact Or.inl ⟨j, hj1, hj2, hj3, hj4, by rw [hres, hj5]⟩
  · exact Or.inr ⟨hall, by rw [hres, heq]⟩

/-- Witness for C1 at a concrete fixture: one entry, garbage collection never
requested; the call returns the entry count `1` with the single entry
processed. -/
theorem addMultipleDictionaryEntries_spec_witness :
    (∃ j, 0 ≤ j ∧ j < witEntriesC1.length ∧
      witOpsC1.needsToRunGC (processFrom witOpsC1 witEntriesC1 0 (j + 1 - 0) 0) = true ∧
      (∀ k, 0 ≤ k → k < j →
        witOpsC1.needsToRunGC (processFrom witOpsC1 witEntriesC1 0 (k + 1 - 0) 0) =
          false) ∧
      latinime_addMultipleDictionaryEntries witOpsC1 (some 0) witEntriesC1 0 =
        (j + 1, some (processFrom witOpsC1 witEntriesC1 0 (j + 1 - 0) 0))) ∨
    ((∀ k, 0 ≤ k → k < witEntriesC1.length →
        witOpsC1.needsToRunGC (processFrom witOpsC1 witEntriesC1 0 (k + 1 - 0) 0) =
          false) ∧
      latinime_addMultipleDictionaryEntries witOpsC1 (some 0) witEntriesC1 0 =
        (witEntriesC1.length,
          some (processFrom witOpsC1 witEntriesC1 0 (witEntriesC1.length - 0) 0))) :=
  addMultipleDictionaryEntries_spec witOpsC1 0 witEntriesC1 0 (by decide) (by decide)

/-- The intermediate-GC step only ever appends the migration target path to
the write log. -/
theorem gcStep_writes {N P : Type} (ops : NewDictOps N P) (path : P) (nd : N)
    (ws : List P) : ∀ p ∈ (gcStep ops path nd ws).2, p ∈ ws ∨ p = path := by
  intro p hp
  by_cases h : ops.needsToRunGC nd <;> simp [gcStep, h] at hp
  · exact hp
  · exact Or.inl hp

/-- A successful inner bigram-insertion loop only appends successful
insertion records. -/
theorem addBigramsAll_some_irs {N P : Type} (ops : NewDictOps N P) (word : List Int) :
    ∀ (bgs : List BigramProperty) (nd : N) (irs : List Bool) (nd1 : N)
      (irs1 : List Bool),
      addBigramsAll ops word nd bgs irs = (some nd1, irs1) → false ∈ irs1 → false ∈ irs := by
  intro bgs
  induction bgs with
  | nil =>
      intro nd irs nd1 irs1 h hf
      simp only [addBigramsAll, Prod.mk.injEq] at h
      rw [← h.2] at hf
      exact hf
  | cons b rest ih =>
      intro nd irs nd1 irs1 h hf
      simp only [addBigramsAll] at h
      cases hb : ops.addBigramWords nd word b with
      | none => rw [hb] at h; simp at h
      | some nd2 =>
          rw [hb] at h
          dsimp only at h
          have hmem := ih nd2 (irs ++ [true]) nd1 irs1 h hf
          simpa using hmem

/-- Any early (`Sum.inl`) exit of the unigram phase reports failure. -/
theorem migrateUnigramLoop_inl_ok {N P : Type} (ops : NewDictOps N P) (path : P)
    (src : List (List Int × WordProperty)) :
    ∀ (fuel token : Nat) (nd : N) (ws : List P) (irs : List Bool) (r : MigrateResult N P),
      migrateUnigramLoop ops path src fuel token nd ws irs = Sum.inl r →
      r.ok = false := by
  intro fuel
  induction fuel with
  | zero => intro token nd ws irs r h; simp [migrateUnigramLoop] at h
  | succ f ih =>
      intro token nd ws irs r h
      simp only [migrateUnigramLoop] at h
      rcases hg : gcStep ops path nd ws with ⟨g1, ws1⟩
      rw [hg] at h
      cases g1 with
      | none =>
          dsimp only at h
          have hr : (⟨false, none, ws1, irs⟩ : MigrateResult N P) = r := by
            simpa using h
          rw [← hr]
      | some nd1 =>
          dsimp only at h
          cases ha : ops.addUnigramWord nd1
              (dictGetNextWordAndNextToken dfltSrcEntry src token).1.1
              (dictGetNextWordAndNextToken dfltSrcEntry src token).1.2.unigram with
          | none =>
              rw [ha] at h
              dsimp only at h
              have hr : (⟨false, none, ws1, irs ++ [false]⟩ : MigrateResult N P) = r := by
                simpa using h
              rw [← hr]
          | some nd2 =>
              rw [ha] at h
              dsimp only at h
              by_cases ht : (dictGetNextWordAndNextToken dfltSrcEntry src token).2 = 0
              · rw [if_pos ht] at h
                simp at h
              · rw [if_neg ht] at h
                exact ih _ nd2 ws1 (irs ++ [true]) r h

/-- Any early (`Sum.inl`) exit of the bigram phase reports failure. -/
theorem migrateBigramLoop_inl_ok {N P : Type} (ops : NewDictOps N P) (path : P)
    (src : List (List Int × WordProperty)) :
    ∀ (fuel token : Nat) (nd : N) (ws : List P) (irs : List Bool) (r : MigrateResult N P),
      migrateBigramLoop ops path src fuel token nd ws irs = Sum.inl r →
      r.ok = false := by
  intro fuel
  induction fuel with
  | zero => intro token nd ws irs r h; simp [migrateBigramLoop] at h
  | succ f ih =>
      intro token nd ws irs r h
      simp only [migrateBigramLoop] at h
      rcases hg : gcStep ops path nd ws with ⟨g1, ws1⟩
      rw [hg] at h
      cases g1 with
      | none =>
          dsimp only at h
          have hr : (⟨false, none, ws1, irs⟩ : MigrateResult N P) = r := by
            simpa using h
          rw [← hr]
      | some nd1 =>
          dsimp only at h
          rcases hb : addBigramsAll ops
              (dictGetNextWordAndNextToken dfltSrcEntry src token).1.1 nd1
              (dictGetNextWordAndNextToken dfltSrcEntry src token).1.2.bigrams irs with
            ⟨b1, irs1⟩
          rw [hb] at h
          cases b1 with
          | none =>
              dsimp only at h
              have hr : (⟨false, none, ws1, irs1⟩ : MigrateResult N P) = r := by
                simpa using h
              rw [← hr]
          | some nd2 =>
              dsimp only at h
              by_cases ht : (dictGetNextWordAndNextToken dfltSrcEntry src token).2 = 0
              · rw [if_pos ht] at h
                simp at h
              · rw [if_neg ht] at h
                exact ih _ nd2 ws1 irs1 r h

/-- The unigram phase only ever appends the migration target path to the
write log, in both its exit forms. -/
theorem migrateUnigramLoop_writes {N P : Type} (ops : NewDictOps N P) (path : P)
    (src : List (List Int × WordProperty)) :
    ∀ (fuel token : Nat) (nd : N) (ws : List P) (irs : List Bool),
      ∀ p ∈ phaseWrites (migrateUnigramLoop ops path src fuel token nd ws irs),
        p ∈ ws ∨ p = path := by
  intro fuel
  induction fuel with
  | zero =>
      intro token nd ws irs p hp
      exact Or.inl (by simpa [migrateUnigramLoop, phaseWrites] using hp)
  | succ f ih =>
      intro token nd ws irs p hp
      simp only [migrateUnigramLoop] at hp
      rcases hg : gcStep ops path nd ws with ⟨g1, ws1⟩
      rw [hg] at hp
      have hws1 : ∀ q ∈ ws1, q ∈ ws ∨ q = path := by
        intro q hq
        have hgw := gcStep_writes ops path nd ws q
        rw [hg] at hgw
        exact hgw hq
      cases g1 with
      | none =>
          dsimp only at hp
          exact hws1 p (by simpa [phaseWrites] using hp)
      | some nd1 =>
          dsimp only at hp
          cases ha : ops.addUnigramWord nd1
              (dictGetNextWordAndNextToken dfltSrcEntry src token).1.1
              (dictGetNextWordAndNextToken dfltSrcEntry src token).1.2.unigram with
          | none =>
              rw [ha] at hp
              dsimp only at hp
              exact hws1 p (by simpa [phaseWrites] using hp)
          | some nd2 =>
              rw [ha] at hp
              dsimp only at hp
              by_cases ht : (dictGetNextWordAndNextToken dfltSrcEntry src token).2 = 0
              · rw [if_pos ht] at hp
                exact hws1 p (by simpa [phaseWrites] using hp)
              · rw [if_neg ht] at hp
                rcases ih _ nd2 ws1 (irs ++ [true]) p hp with hin | heq
                · exact hws1 p hin
                · exact Or.inr heq

/-- The bigram phase only ever appends the migration target path to the
write log, in both its exit forms. -/
theorem migrateBigramLoop_writes {N P : Type} (ops : NewDictOps N P) (path : P)
    (src : List (List Int × WordProperty)) :
    ∀ (fuel token : Nat) (nd : N) (ws : List P) (irs : List Bool),
      ∀ p ∈ phaseWrites (migrateBigramLoop ops path src fuel token nd ws irs),
        p ∈ ws ∨ p = path := by
  intro fuel
  induction fuel with
  | zero =>
      intro token nd ws irs p hp
      exact Or.inl (by simpa [migrateBigramLoop, phaseWrites] using hp)
  | succ f ih =>
      intro token nd ws irs p hp
      simp only [migrateBigramLoop] at hp
      rcases hg : gcStep ops path nd ws with ⟨g1, ws1⟩
      rw [hg] at hp
      have hws1 : ∀ q ∈ ws1, q ∈ ws ∨ q = path := by
        intro q hq
        have hgw := gcStep_writes ops path nd ws q
        rw [hg] at hgw
        exact hgw hq
      cases g1 with
      | none =>
          dsimp only at hp
          exact hws1 p (by simpa [phaseWrites] using hp)
      | some nd1 =>
          dsimp only at hp
          rcases hb : addBigramsAll ops
              (dictGetNextWordAndNextToken dfltSrcEntry src token).1.1 nd1
              (dictGetNextWordAndNextToken dfltSrcEntry src token).1.2.bigrams irs with
            ⟨b1, irs1⟩
          rw [hb] at hp
          cases b1 with
          | none =>
              dsimp only at hp
              exact hws1 p (by simpa [phaseWrites] using hp)
          | some nd2 =>
              dsimp only at hp
              by_cases ht : (dictGetNextWordAndNextToken dfltSrcEntry src token).2 = 0
              · rw [if_pos ht] at hp
                exact hws1 p (by simpa [phaseWrites] using hp)
              · rw [if_neg ht] at hp
                rcases ih _ nd2 ws1 irs1 p hp with hin | heq
                · exact hws1 p hin
                · exact Or.inr heq

/-- A completed unigram phase only appends successful insertion records. -/
theorem migrateUnigramLoop_inr_irs {N P : Type} (ops : NewDictOps N P) (path : P)
    (src : List (List Int × WordProperty)) :
    ∀ (fuel token : Nat) (nd : N) (ws : List P) (irs : List Bool) (nd1 : N)
      (ws1 : List P) (irs1 : List Bool),
      migrateUnigramLoop ops path src fuel token nd ws irs = Sum.inr (nd1, ws1, irs1) →
      false ∈ irs1 → false ∈ irs := by
  intro fuel
  induction fuel with
  | zero =>
      intro token nd ws irs nd1 ws1 irs1 h hf
      simp only [migrateUnigramLoop, Sum.inr.injEq, Prod.mk.injEq] at h
      rw [← h.2.2] at hf
      exact hf
  | succ f ih =>
      intro token nd ws irs nd1 ws1 irs1 h hf
      simp only [migrateUnigramLoop] at h
      rcases hg : gcStep ops path nd ws with ⟨g1, ws2⟩
      rw [hg] at h
      cases g1 with
      | none => dsimp only at h; simp at h
      | some ndg =>
          dsimp only at h
          cases ha : ops.addUnigramWord ndg
              (dictGetNextWordAndNextToken dfltSrcEntry src token).1.1
              (dictGetNextWordAndNextToken dfltSrcEntry src token).1.2.unigram with
          | none => rw [ha] at h; dsimp only at h; simp at h
          | some nd2 =>
              rw [ha] at h
              dsimp only at h
              by_cases ht : (dictGetNextWordAndNextToken dfltSrcEntry src token).2 = 0
              · rw [if_pos ht] at h
                simp only [Sum.inr.injEq, Prod.mk.injEq] at h
                rw [← h.2.2] at hf
                simpa using hf
              · rw [if_neg ht] at h
                have hmem := ih _ nd2 ws2 (irs ++ [true]) nd1 ws1 irs1 h hf
                simpa using hmem

/-- A completed bigram phase only appends successful insertion records. -/
theorem migrateBigramLoop_inr_irs {N P : Type} (ops : NewDictOps N P) (path : P)
    (src : List (List Int × WordProperty)) :
    ∀ (fuel token : Nat) (nd : N) (ws : List P) (irs : List Bool) (nd1 : N)
      (ws1 : List P) (irs1 : List Bool),
      migrateBigramLoop ops path src fuel token nd ws irs = Sum.inr (nd1, ws1, irs1) →
      false ∈ irs1 → false ∈ irs := by
  intro fuel
  induction fuel with
  | zero =>
      intro token nd ws irs nd1 ws1 irs1 h hf
      simp only [migrateBigramLoop, Sum.inr.injEq, Prod.mk.injEq] at h
      rw [← h.2.2] at hf
      exact hf
  | succ f ih =>
      intro token nd ws irs nd1 ws1 irs1 h hf
      simp only [migrateBigramLoop] at h
      rcases hg : gcStep ops path nd ws with ⟨g1, ws2⟩
      rw [hg] at h
      cases g1 with
      | none => dsimp only at h; simp at h
      | some ndg =>
          dsimp only at h
          rcases hb : addBigramsAll ops
              (dictGetNextWordAndNextToken dfltSrcEntry src token).1.1 ndg
              (dictGetNextWordAndNextToken dfltSrcEntry src token).1.2.bigrams irs with
            ⟨b1, irs2⟩
          rw [hb] at h
          cases b1 with
          | none => dsimp only at h; simp at h
          | some nd2 =>
              dsimp only at h
              by_cases ht : (dictGetNextWordAndNextToken dfltSrcEntry src token).2 = 0
              · rw [if_pos ht] at h
                simp only [Sum.inr.injEq, Prod.mk.injEq] at h
                rw [← h.2.2] at hf
                exact addBigramsAll_some_irs ops _ _ ndg irs nd2 irs2 hb hf
              · rw [if_neg ht] at h
                have hmem := ih _ nd2 ws2 irs2 nd1 ws1 irs1 h hf
                exact addBigramsAll_some_irs ops _ _ ndg irs nd2 irs2 hb hmem

/-- Claim C2: if any unigram or bigram insertion into the new dictionary
fails during `migrateNative`, the migration returns `false`, every file write
it performed targets the migration destination path, and in particular
nothing is written at the distinct file path of the source dictionary. -/
theorem migrateNative_failure_spec {N P : Type} (ops : NewDictOps N P)
    (src : List (List Int × WordProperty)) (path srcPath : P) (init : Option N)
    (hpath : srcPath ≠ path)
    (hfail : false ∈ (latinime_migrateNative ops (some src) path init).insertResults) :
    (latinime_migrateNative ops (some src) path init).ok = false ∧
    (∀ p ∈ (latinime_migrateNative ops (some src) path init).writes, p = path) ∧
    srcPath ∉ (latinime_migrateNative ops (some src) path init).writes := by
  have hmain : (latinime_migrateNative ops (some src) path init).ok = false ∧
      (∀ p ∈ (latinime_migrateNative ops (some src) path init).writes, p = path) := by
    cases init with
    | none => exact ⟨rfl, by intro p hp; simp [latinime_migrateNative] at hp⟩
    | some n0 =>
        cases h1 : migrateUnigramLoop ops path src src.length 0 n0 [] [] with
        | inl r =>
            have hres : latinime_migrateNative ops (some src) path (some n0) = r := by
              simp only [latinime_migrateNative]
              rw [h1]
            rw [hres]
            refine ⟨migrateUnigramLoop_inl_ok ops path src _ 0 n0 [] [] r h1, ?_⟩
            intro p hp
            have hw := migrateUnigramLoop_writes ops path src src.length 0 n0 [] [] p
            rw [h1] at hw
            rcases hw (by simpa [phaseWrites] using hp) with hin | heq
            · simp at hin
            · exact heq
        | inr x =>
            rcases x with ⟨n1, ws1, irs1⟩
            have hws1 : ∀ p ∈ ws1, p = path := by
              intro p hp
              have hw := migrateUnigramLoop_writes ops path src src.length 0 n0 [] [] p
              rw [h1] at hw
              rcases hw (by simpa [phaseWrites] using hp) with hin | heq
              · simp at hin
              · exact heq
            cases h2 : migrateBigramLoop ops path src src.length 0 n1 ws1 irs1 with
            | inl r =>
                have hres : latinime_migrateNative ops (some src) path (some n0) = r := by
                  simp only [latinime_migrateNative]
                  rw [h1]
                  dsimp only
                  rw [h2]
                rw [hres]
                refine ⟨migrateBigramLoop_inl_ok ops path src _ 0 n1 ws1 irs1 r h2, ?_⟩
                intro p hp
                have hw := migrateBigramLoop_writes ops path src src.length 0 n1 ws1 irs1 p
                rw [h2] at hw
                rcases hw (by simpa [phaseWrites] using hp) with hin | heq
                · exact hws1 p hin
                · exact heq
            | inr y =>
                rcases y with ⟨n2, ws2, irs2⟩
                exfalso
                have hres : latinime_migrateNative ops (some src) path (some n0) =
                    ⟨true, some n2, ws2 ++ [path], irs2⟩ := by
                  simp only [latinime_migrateNative]
                  rw [h1]
                  dsimp only
                  rw [h2]
                rw [hres] at hfail
                have hf1 := migrateBigramLoop_inr_irs ops path src src.length 0 n1 ws1
                  irs1 n2 ws2 irs2 h2 hfail
                have hf0 := migrateUnigramLoop_inr_irs ops path src src.length 0 n0 [] []
                  n1 ws1 irs1 h1 hf1
                simp at hf0
  refine ⟨hmain.1, hmain.2, ?_⟩
  intro hmem
  exact hpath (hmain.2 srcPath hmem)


/-- Witness for C2 at a concrete fixture: unigram insertion always fails on
a one-word source, so the migration reports `false`, writes nothing but the
target path `3`, and in particular never writes the distinct source path
`5`. -/
theorem migrateNative_failure_spec_witness :
    (latinime_migrateNative witOpsC2 (some witSrcC2) 3 (some 0)).ok = false ∧
    (∀ p ∈ (latinime_migrateNative witOpsC2 (some witSrcC2) 3 (some 0)).writes,
        p = 3) ∧
    5 ∉ (latinime_migrateNative witOpsC2 (some witSrcC2) 3 (some 0)).writes :=
  migrateNative_failure_spec witOpsC2 witSrcC2 3 5 (some 0) (by decide) (by decide)

/-- Lookup finds the binding just placed at the head of a model dictionary. -/
theorem modelLookup_cons_self (d : ModelDict) (w : List Int)
    (pr : UnigramProperty × List BigramProperty) :
    modelLookup ((w, pr) :: d) w = some pr := by
  simp [modelLookup, List.find?_cons]

/-- A head binding for a different word does not affect a lookup. -/
theorem modelLookup_cons_other (d : ModelDict) (w w' : List Int)
    (pr : UnigramProperty × List BigramProperty) (h : w' ≠ w) :
    modelLookup ((w, pr) :: d) w' = modelLookup d w' := by
  have hp : (decide (w = w')) = false := by simp [Ne.symm h]
  simp [modelLookup, List.find?_cons, hp]

/-- Inserting a fresh word stores its unigram with an empty bigram list. -/
theorem modelInsertUnigram_fresh (d : ModelDict) (w : List Int) (up : UnigramProperty)
    (h : modelLookup d w = none) :
    modelInsertUnigram d w up = (w, (up, [])) :: d := by
  simp [modelInsertUnigram, h]

/-- The GC step of the model operations never fails and keeps the dictionary
unchanged, writing the target path exactly when GC was requested. -/
theorem modelGcStep {P : Type} (gc : ModelDict → Bool) (path : P) (d : ModelDict)
    (ws : List P) :
    gcStep (modelOps (P := P) gc) path d ws =
      (some d, if gc d then ws ++ [path] else ws) := by
  by_cases h : gc d <;> simp [gcStep, modelOps, h]

/-- Iterator behaviour below the word count. -/
theorem dictGetNext_lt {α : Type} (dflt : α) (ws : List α) (t : Nat) (h : t < ws.length) :
    dictGetNextWordAndNextToken dflt ws t =
      (ws[t], if t + 1 < ws.length then t + 1 else 0) := by
  simp [dictGetNextWordAndNextToken, h]

/-- Inner bigram loop under the model operations: every insertion succeeds,
the source word's bigram list is folded in, and other words are untouched. -/
theorem modelAddBigramsAll_run {P : Type} (gc : ModelDict → Bool) (word : List Int) :
    ∀ (bgs : List BigramProperty) (d : ModelDict) (irs : List Bool)
      (up : UnigramProperty) (bgs0 : List BigramProperty),
      modelLookup d word = some (up, bgs0) →
      ∃ d1 irs1,
        addBigramsAll (modelOps (P := P) gc) word d bgs irs = (some d1, irs1) ∧
        modelLookup d1 word = some (up, bgs.foldl upsertBigram bgs0) ∧
        ∀ w', w' ≠ word → modelLookup d1 w' = modelLookup d w' := by
  intro bgs
  induction bgs with
  | nil =>
      intro d irs up bgs0 h
      exact ⟨d, irs, rfl, by simpa using h, fun w' _ => rfl⟩
  | cons b rest ih =>
      intro d irs up bgs0 h
      have hstep : (modelOps (P := P) gc).addBigramWords d word b =
          some ((word, (up, upsertBigram bgs0 b)) :: d) := by
        simp [modelOps, modelAddBigram, h]
      obtain ⟨d1, irs1, heq, hlook, hother⟩ :=
        ih ((word, (up, upsertBigram bgs0 b)) :: d) (irs ++ [true]) up
          (upsertBigram bgs0 b) (modelLookup_cons_self d word (up, upsertBigram bgs0 b))
      refine ⟨d1, irs1, ?_, by simpa using hlook, ?_⟩
      · simp only [addBigramsAll]
        rw [hstep]
        dsimp only
        exact heq
      · intro w' hw
        rw [hother w' hw, modelLookup_cons_other d word w' _ hw]

/-- One unfolding of the unigram phase under the model operations. -/
theorem modelUnigramLoop_step {P : Type} (gc : ModelDict → Bool) (path : P)
    (src : List (List Int × WordProperty)) (f t : Nat) (d : ModelDict) (ws : List P)
    (irs : List Bool) (h1 : t < src.length) :
    migrateUnigramLoop (modelOps (P := P) gc) path src (f + 1) t d ws irs =
      (if (if t + 1 < src.length then t + 1 else 0) = 0 then
        Sum.inr (modelInsertUnigram d src[t].1 src[t].2.unigram,
          (if gc d then ws ++ [path] else ws), irs ++ [true])
      else
        migrateUnigramLoop (modelOps (P := P) gc) path src f
          (if t + 1 < src.length then t + 1 else 0)
          (modelInsertUnigram d src[t].1 src[t].2.unigram)
          (if gc d then ws ++ [path] else ws) (irs ++ [true])) := by
  simp only [migrateUnigramLoop]
  rw [modelGcStep, dictGetNext_lt dfltSrcEntry src t h1]
  by_cases hgc : gc d <;> simp [hgc, modelOps]

/-- One unfolding of the bigram phase under the model operations. -/
theorem modelBigramLoop_step {P : Type} (gc : ModelDict → Bool) (path : P)
    (src : List (List Int × WordProperty)) (f t : Nat) (d : ModelDict) (ws : List P)
    (irs : List Bool) (h1 : t < src.length) :
    migrateBigramLoop (modelOps (P := P) gc) path src (f + 1) t d ws irs =
      (match addBigramsAll (modelOps (P := P) gc) src[t].1 d src[t].2.bigrams irs with
      | (none, irs1) =>
          Sum.inl ⟨false, none, (if gc d then ws ++ [path] else ws), irs1⟩
      | (some nd2, irs1) =>
          if (if t + 1 < src.length then t + 1 else 0) = 0 then
            Sum.inr (nd2, (if gc d then ws ++ [path] else ws), irs1)
          else
            migrateBigramLoop (modelOps (P := P) gc) path src f
              (if t + 1 < src.length then t + 1 else 0) nd2
              (if gc d then ws ++ [path] else ws) irs1) := by
  simp only [migrateBigramLoop]
  rw [modelGcStep, dictGetNext_lt dfltSrcEntry src t h1]
  dsimp only
  rcases hab : addBigramsAll (modelOps (P := P) gc) src[t].1 d src[t].2.bigrams irs with
    ⟨b1, irs1⟩
  cases b1 <;> rfl

/-- Unigram phase under the model operations: it always completes and builds
exactly the unigram fold of the remaining source entries, whatever the GC
predicate does. -/
theorem modelUnigramLoop_run {P : Type} (gc : ModelDict → Bool) (path : P)
    (src : List (List Int × WordProperty)) :
    ∀ (fuel t : Nat) (d : ModelDict) (ws : List P) (irs : List Bool),
      t < src.length → src.length ≤ t + fuel →
      ∃ ws1 irs1,
        migrateUnigramLoop (modelOps (P := P) gc) path src fuel t d ws irs =
          Sum.inr (uniFold d (src.drop t), ws1, irs1) := by
  intro fuel
  induction fuel with
  | zero => intro t d ws irs h1 h2; omega
  | succ f ih =>
      intro t d ws irs h1 h2
      have hd : src.drop t = src[t] :: src.drop (t + 1) := List.drop_eq_getElem_cons h1
      have hfold : uniFold d (src.drop t) =
          uniFold (modelInsertUnigram d src[t].1 src[t].2.unigram) (src.drop (t + 1)) := by
        rw [hd]
        rfl
      rw [modelUnigramLoop_step gc path src f t d ws irs h1, hfold]
      by_cases ht : t + 1 < src.length
      · have hc : (if t + 1 < src.length then t + 1 else 0) = t + 1 := if_pos ht
        rw [hc, if_neg (Nat.succ_ne_zero t)]
        exact ih (t + 1) (modelInsertUnigram d src[t].1 src[t].2.unigram)
          (if gc d then ws ++ [path] else ws) (irs ++ [true]) ht (by omega)
      · have hc : (if t + 1 < src.length then t + 1 else 0) = 0 := if_neg ht
        rw [hc, if_pos rfl]
        have hdrop : src.drop (t + 1) = [] := List.drop_eq_nil_of_le (by omega)
        rw [hdrop]
        exact ⟨if gc d then ws ++ [path] else ws, irs ++ [true], rfl⟩

/-- Bigram phase under the model operations: starting below the word count
with pairwise-distinct remaining words all present in the dictionary, it
completes, folding each remaining word's source bigrams into its entry and
leaving every other word untouched. -/
theorem modelBigramLoop_run {P : Type} (gc : ModelDict → Bool) (path : P)
    (src : List (List Int × WordProperty)) :
    ∀ (fuel t : Nat) (d : ModelDict) (ws : List P) (irs : List Bool),
      t < src.length → src.length ≤ t + fuel →
      ((src.drop t).map Prod.fst).Nodup →
      (∀ e ∈ src.drop t, (modelLookup d e.1).isSome) →
      ∃ d1 ws1 irs1,
        migrateBigramLoop (modelOps (P := P) gc) path src fuel t d ws irs =
          Sum.inr (d1, ws1, irs1) ∧
        (∀ e ∈ src.drop t, ∀ pr, modelLookup d e.1 = some pr →
          modelLookup d1 e.1 = some (pr.1, e.2.bigrams.foldl upsertBigram pr.2)) ∧
        (∀ w, w ∉ (src.drop t).map Prod.fst → modelLookup d1 w = modelLookup d w) := by
  intro fuel
  induction fuel with
  | zero => intro t d ws irs h1 h2; omega
  | succ f ih =>
      intro t d ws irs h1 h2 hnodup hpres
      have hd : src.drop t = src[t] :: src.drop (t + 1) := List.drop_eq_getElem_cons h1
      rw [hd] at hnodup
      simp only [List.map_cons] at hnodup
      obtain ⟨hhead, htail⟩ := List.nodup_cons.mp hnodup
      have hcur : (modelLookup d src[t].1).isSome := by
        apply hpres src[t]
        rw [hd]
        exact List.mem_cons_self _ _
      obtain ⟨⟨up, bgs0⟩, hlk⟩ := Option.isSome_iff_exists.mp hcur
      obtain ⟨d1', irs1', haba, hlook, hother⟩ :=
        modelAddBigramsAll_run (P := P) gc src[t].1 src[t].2.bigrams d irs up bgs0 hlk
      rw [modelBigramLoop_step gc path src f t d ws irs h1, haba]
      dsimp only
      by_cases ht : t + 1 < src.length
      · have hc : (if t + 1 < src.length then t + 1 else 0) = t + 1 := if_pos ht
        rw [hc, if_neg (Nat.succ_ne_zero t)]
        have hpres' : ∀ e ∈ src.drop (t + 1), (modelLookup d1' e.1).isSome := by
          intro e he
          have hne : e.1 ≠ src[t].1 := by
            intro hcontra
            apply hhead
            rw [← hcontra]
            exact List.mem_map_of_mem Prod.fst he
          rw [hother e.1 hne]
          apply hpres e
          rw [hd]
          exact List.mem_cons_of_mem _ he
        obtain ⟨d1, ws1, irs1, heq, hA, hB⟩ := ih (t + 1) d1'
          (if gc d then ws ++ [path] else ws) irs1' ht (by omega) htail hpres'
        refine ⟨d1, ws1, irs1, heq, ?_, ?_⟩
        · intro e he pr hlk'
          rw [hd] at he
          rcases List.mem_cons.mp he with he1 | he2
          · subst he1
            have hpr : (up, bgs0) = pr := Option.some.inj (hlk.symm.trans hlk')
            rw [← hpr, hB src[t].1 hhead, hlook]
          · have hne : e.1 ≠ src[t].1 := by
              intro hcontra
              apply hhead
              rw [← hcontra]
              exact List.mem_map_of_mem Prod.fst he2
            have hlk2 : modelLookup d1' e.1 = some pr := by
              rw [hother e.1 hne]
              exact hlk'
            exact hA e he2 pr hlk2
        · intro w hw
          rw [hd] at hw
          simp only [List.map_cons, List.mem_cons, not_or] at hw
          rw [hB w hw.2, hother w hw.1]
      · have hc : (if t + 1 < src.length then t + 1 else 0) = 0 := if_neg ht
        rw [hc, if_pos rfl]
        have hdrop : src.drop (t + 1) = [] := List.drop_eq_nil_of_le (by omega)
        refine ⟨d1', if gc d then ws ++ [path] else ws, irs1', rfl, ?_, ?_⟩
        · intro e he pr hlk'
          rw [hd, hdrop] at he
          have he1 : e = src[t] := by simpa using he
          subst he1
          have hpr : (up, bgs0) = pr := Option.some.inj (hlk.symm.trans hlk')
          rw [← hpr, hlook]
        · intro w hw
          rw [hd, hdrop] at hw
          have hne : w ≠ src[t].1 := by simpa using hw
          exact hother w hne

/-- Folding the unigram insertions of pairwise-distinct fresh entries stores
each entry's unigram with an empty bigram list and leaves other words
untouched. -/
theorem uniFold_lookup :
    ∀ (es : List (List Int × WordProperty)) (d : ModelDict),
      (es.map Prod.fst).Nodup →
      (∀ e ∈ es, modelLookup d e.1 = none) →
      (∀ e ∈ es, modelLookup (uniFold d es) e.1 = some (e.2.unigram, [])) ∧
      (∀ w, w ∉ es.map Prod.fst → modelLookup (uniFold d es) w = modelLookup d w) := by
  intro es
  induction es with
  | nil => intro d _ _; exact ⟨by simp, fun w _ => rfl⟩
  | cons e rest ih =>
      intro d hnodup hnone
      simp only [List.map_cons] at hnodup
      obtain ⟨hhead, htail⟩ := List.nodup_cons.mp hnodup
      have hfresh : modelLookup d e.1 = none := hnone e (List.mem_cons_self e rest)
      have hins : modelInsertUnigram d e.1 e.2.unigram = (e.1, (e.2.unigram, [])) :: d :=
        modelInsertUnigram_fresh d e.1 e.2.unigram hfresh
      have hstep : uniFold d (e :: rest) = uniFold ((e.1, (e.2.unigram, [])) :: d) rest := by
        rw [show uniFold d (e :: rest) =
          uniFold (modelInsertUnigram d e.1 e.2.unigram) rest from rfl, hins]
      have hnone1 : ∀ e' ∈ rest, modelLookup ((e.1, (e.2.unigram, [])) :: d) e'.1 = none := by
        intro e' he'
        have hne : e'.1 ≠ e.1 := by
          intro hc
          apply hhead
          rw [← hc]
          exact List.mem_map_of_mem Prod.fst he'
        rw [modelLookup_cons_other _ _ _ _ hne]
        exact hnone e' (List.mem_cons_of_mem e he')
      obtain ⟨h1, h2⟩ := ih ((e.1, (e.2.unigram, [])) :: d) htail hnone1
      constructor
      · intro e' he'
        rcases List.mem_cons.mp he' with he1 | he2
        · subst he1
          rw [hstep, h2 e'.1 hhead, modelLookup_cons_self]
        · rw [hstep]
          exact h1 e' he2
      · intro w hw
        simp only [List.map_cons, List.mem_cons, not_or] at hw
        rw [hstep, h2 w hw.2, modelLookup_cons_other _ _ _ _ hw.1]

/-- Folding upserts of bigrams with pairwise-distinct targets, all fresh with
respect to the accumulator, appends them in order. -/
theorem foldl_upsertBigram_append :
    ∀ (bgs acc : List BigramProperty),
      (bgs.map BigramProperty.targetCodePoints).Nodup →
      (∀ b ∈ bgs, ∀ a ∈ acc, a.targetCodePoints ≠ b.targetCodePoints) →
      bgs.foldl upsertBigram acc = acc ++ bgs := by
  intro bgs
  induction bgs with
  | nil => intro acc _ _; simp
  | cons b rest ih =>
      intro acc hnodup hdisj
      simp only [List.map_cons] at hnodup
      obtain ⟨hhead, htail⟩ := List.nodup_cons.mp hnodup
      have hany : acc.any (fun a => decide (a.targetCodePoints = b.targetCodePoints))
          = false := by
        rw [List.any_eq_false]
        intro a ha
        simp [hdisj b (List.mem_cons_self b rest) a ha]
      have hups : upsertBigram acc b = acc ++ [b] := by
        simp [upsertBigram, hany]
      have hdisj1 : ∀ b' ∈ rest, ∀ a ∈ acc ++ [b],
          a.targetCodePoints ≠ b'.targetCodePoints := by
        intro b' hb' a ha
        rcases List.mem_append.mp ha with hin | hin
        · exact hdisj b' (List.mem_cons_of_mem b hb') a hin
        · have hab : a = b := by simpa using hin
          subst hab
          intro hc
          apply hhead
          rw [hc]
          exact List.mem_map_of_mem BigramProperty.targetCodePoints hb'
      rw [List.foldl_cons, hups, ih (acc ++ [b]) htail hdisj1]
      simp

/-- Upsert-folding a bigram list with pairwise-distinct targets into an empty
list reproduces it exactly. -/
theorem foldl_upsertBigram_nil (bgs : List BigramProperty)
    (h : (bgs.map BigramProperty.targetCodePoints).Nodup) :
    bgs.foldl upsertBigram [] = bgs := by
  have hrun := foldl_upsertBigram_append bgs [] h (by intro b _ a ha; simp at ha)
  simpa using hrun

/-- Claim C3: migration re-inserts every word and every bigram through the
iteration protocol into the new empty target dictionary, with an intermediate
`flushWithGC` whenever the (arbitrary) GC probe fires; it succeeds, persists
the result with a final `flushWithGC` to the target path, and the resulting
dictionary answers every `getWordProperty` and every bigram query exactly as
the source does. -/
theorem migrateNative_refines {P : Type} (gc : ModelDict → Bool) (path : P)
    (src : List (List Int × WordProperty)) (hne : src ≠ [])
    (hkeys : (src.map Prod.fst).Nodup)
    (htargets : ∀ e ∈ src, (e.2.bigrams.map BigramProperty.targetCodePoints).Nodup) :
    (latinime_migrateNative (modelOps (P := P) gc) (some src) path (some [])).ok = true ∧
    (latinime_migrateNative (modelOps (P := P) gc) (some src) path
        (some [])).writes.getLast? = some path ∧
    ∃ d, (latinime_migrateNative (modelOps (P := P) gc) (some src) path
        (some [])).newDict = some d ∧
      (∀ w, modelLookup d w = sourceLookup src w) ∧
      (∀ w0 w1, modelGetBigramProbability d w0 w1 = sourceGetBigramProbability src w0 w1) := by
  have hlen : 0 < src.length := List.length_pos.mpr hne
  obtain ⟨ws1, irs1, h1⟩ :=
    modelUnigramLoop_run gc path src src.length 0 ([] : ModelDict) [] [] hlen (by omega)
  rw [List.drop_zero] at h1
  obtain ⟨hU1, hU2⟩ := uniFold_lookup src [] hkeys (fun e _ => rfl)
  have hpres : ∀ e ∈ src.drop 0, (modelLookup (uniFold [] src) e.1).isSome := by
    intro e he
    rw [List.drop_zero] at he
    rw [hU1 e he]
    rfl
  obtain ⟨d1, ws2, irs2, h2, hA, hB⟩ := modelBigramLoop_run gc path src src.length 0
    (uniFold [] src) ws1 irs1 hlen (by omega) (by rw [List.drop_zero]; exact hkeys) hpres
  have hres : latinime_migrateNative (modelOps (P := P) gc) (some src) path (some []) =
      ⟨true, some d1, ws2 ++ [path], irs2⟩ := by
    simp only [latinime_migrateNative]
    rw [h1]
    dsimp only
    rw [h2]
  have hlkEq : ∀ w, modelLookup d1 w = sourceLookup src w := by
    intro w
    cases hs : src.find? (fun e => decide (e.1 = w)) with
    | none =>
        have hw : w ∉ src.map Prod.fst := by
          intro hmem
          obtain ⟨e, he, heq⟩ := List.mem_map.mp hmem
          have hno := List.find?_eq_none.mp hs e he
          simp [heq] at hno
        have hB0 := hB w (by rw [List.drop_zero]; exact hw)
        rw [hB0, hU2 w hw]
        simp [modelLookup, sourceLookup, hs]
    | some a =>
        have ha1 : a.1 = w := by
          have hpa := List.find?_some hs
          simpa using hpa
        have ha2 : a ∈ src := List.mem_of_find?_eq_some hs
        have hlkA := hA a (by rw [List.drop_zero]; exact ha2) (a.2.unigram, [])
          (hU1 a ha2)
        rw [ha1] at hlkA
        rw [hlkA]
        have hfold : a.2.bigrams.foldl upsertBigram [] = a.2.bigrams :=
          foldl_upsertBigram_nil a.2.bigrams (htargets a ha2)
        simp only at hfold ⊢
        rw [hfold]
        simp [sourceLookup, hs]
  refine ⟨by rw [hres], ?_, d1, by rw [hres], hlkEq, ?_⟩
  · rw [hres]
    exact List.getLast?_concat ws2
  · intro w0 w1
    cases hs0 : sourceLookup src w0 <;>
      simp [modelGetBigramProbability, sourceGetBigramProbability, hlkEq w0, hs0]

/-- Witness for C3 at a concrete two-word source with one bigram and a GC
probe that always fires: the migration succeeds, ends with a flush to the
target path `0`, and the migrated dictionary answers lookups like the
source. -/
theorem migrateNative_refines_witness :
    (latinime_migrateNative (modelOps (P := Nat) (fun _ => true)) (some witSrcC3) 0
        (some [])).ok = true ∧
    (latinime_migrateNative (modelOps (P := Nat) (fun _ => true)) (some witSrcC3) 0
        (some [])).writes.getLast? = some 0 ∧
    ∃ d, (latinime_migrateNative (modelOps (P := Nat) (fun _ => true)) (some witSrcC3) 0
        (some [])).newDict = some d ∧
      (∀ w, modelLookup d w = sourceLookup witSrcC3 w) ∧
      (∀ w0 w1,
        modelGetBigramProbability d w0 w1 = sourceGetBigramProbability witSrcC3 w0 w1) :=
  migrateNative_refines (fun _ => true) 0 witSrcC3 (by decide) (by decide) (by decide)

/-- Claim C10: every JNI entry point invoked on a null (zero) dictionary
handle reads and mutates no dictionary state and returns its fixed default:
`0` for `open` (failed construction), `getNextWord`,
`addMultipleDictionaryEntries` and `getFormatVersion`; `false` for
`needsToRunGC`, `isCorrupted` and `migrate`; `NOT_A_PROBABILITY` for
`getProbability` and `calculateProbability`; the empty string for
`getProperty`; suggestion count `0` for `getSuggestions`; and notably `0`
(`JNI_FALSE`), not `NOT_A_PROBABILITY`, for `getBigramProbability`. -/
theorem jni_null_handle_spec :
    (∀ (α : Type) (fresh : Nat), latinime_open (none : Option α) fresh = 0) ∧
    (∀ w, latinime_getProbability none w = NOT_A_PROBABILITY) ∧
    (∀ w0 w1, latinime_getBigramProbability none w0 w1 = 0) ∧
    (0 : Int) ≠ NOT_A_PROBABILITY ∧
    (∀ u b, latinime_calculateProbability none u b = NOT_A_PROBABILITY) ∧
    latinime_getFormatVersion none = 0 ∧
    (∀ m, latinime_needsToRunGC none m = false) ∧
    latinime_isCorrupted none = false ∧
    (∀ q, latinime_getProperty none q = "") ∧
    latinime_getSuggestions none = 0 ∧
    (∀ (α : Type) (dflt : α) (token outLen : Nat),
      latinime_getNextWord dflt none token outLen = (0, none, false)) ∧
    (∀ (D : Type) (ops : DictMutOps D) (entries : List LanguageModelParam) (si : Nat),
      latinime_addMultipleDictionaryEntries ops none entries si = (0, none)) ∧
    (∀ (N P : Type) (ops : NewDictOps N P) (path : P) (init : Option N),
      latinime_migrateNative ops none path init =
        ⟨false, none, [], []⟩) :=
  ⟨fun _ _ => rfl, fun _ => rfl, fun _ _ => rfl, by decide, fun _ _ => rfl, rfl,
   fun _ => rfl, rfl, fun _ => rfl, rfl, fun _ _ _ _ => rfl, fun _ _ _ _ => rfl,
   fun _ _ _ _ _ => rfl⟩

/-- Sanity check: the model reproduces the read/write sequence of
`TrieMapTest.TestSetAndGet` (`trie_map_test.cpp` lines 31-48). -/
theorem trieMap_matches_test_set_and_get :
    let m1 := (TrieMap.empty.putRoot 10 10).2
    let m2 := (m1.putRoot 266 10).2
    let m3 := (m2.putRoot 10 1000).2
    let m4 := (m3.putRoot 11 1000).2
    let next := (m4.getNextLevelBitmapEntryIndexRoot 10).1
    let m5 := (m4.getNextLevelBitmapEntryIndexRoot 10).2
    let m6 := (m5.put 9 9 next).2
    let m7 := (m6.putRoot 0 68719476735).2
    (m1.getRoot 10).mValue = 10 ∧
    (m2.getRoot 10).mValue = 10 ∧ (m2.getRoot 266).mValue = 10 ∧
    (m3.getRoot 10).mValue = 1000 ∧
    (m4.getRoot 11).mValue = 1000 ∧
    (m6.get 9 next).mValue = 9 ∧
    (m6.get 11 next).mIsValid = false ∧
    (m7.getRoot 0).mValue = 68719476735 := by
  decide

end LatinIME
